import Mathlib

/-!
Shallow embedding of `microserveur/command_parser.py` (free-text trade-command
parsing) and proofs about it.

Modelling conventions:
* Python strings are modelled as `List Char` (`Tok`); string literals are
  injected with `lit`.
* Character classes (`isalpha`, `isalnum`, whitespace, the regex classes
  `[A-Za-z0-9]`, `[a-z0-9]`, `\d`) are modelled over ASCII, which covers every
  character class the parser's regexes use.
* `unicodedata.normalize("NFKD", ...)` followed by dropping combining marks
  (`strip_accents`) is modelled by a finite table of Latin accented letters
  mapped to their base letter; characters outside the table pass through
  unchanged.  This is faithful for the vocabulary and for ASCII input.
* `decimal.Decimal` values produced by the parser are plain scaled integers
  `num / 10 ^ scale`; they are modelled by the structure `Dec`.
-/

/-- A Python string, modelled as its list of characters. -/
abbrev Tok := List Char

/-- Inject a Lean string literal into the token model. -/
def lit (s : String) : Tok := s.data

/-- ASCII decimal digit (regex class `\d` / `[0-9]`). -/
def isDigitC (c : Char) : Bool := 48 ≤ c.toNat && c.toNat ≤ 57

/-- ASCII letter (regex class `[A-Za-z]`, Python `str.isalpha` on ASCII). -/
def isAlphaC (c : Char) : Bool :=
  (65 ≤ c.toNat && c.toNat ≤ 90) || (97 ≤ c.toNat && c.toNat ≤ 122)

/-- ASCII letter or digit (regex class `[A-Za-z0-9]`). -/
def isAlnumC (c : Char) : Bool := isAlphaC c || isDigitC c

/-- ASCII lowercase letter or digit (regex class `[a-z0-9]`). -/
def isLowerAlnumC (c : Char) : Bool :=
  (97 ≤ c.toNat && c.toNat ≤ 122) || (48 ≤ c.toNat && c.toNat ≤ 57)

/-- Whitespace for `str.split()` (ASCII: space, \t, \n, \v, \f, \r). -/
def isSpaceC (c : Char) : Bool :=
  c.toNat = 32 || (9 ≤ c.toNat && c.toNat ≤ 13)

/-- The ASCII (lowercase, uppercase) letter pairs. -/
def CASE_TABLE : List (Char × Char) :=
  [('a', 'A'), ('b', 'B'), ('c', 'C'), ('d', 'D'), ('e', 'E'), ('f', 'F'),
   ('g', 'G'), ('h', 'H'), ('i', 'I'), ('j', 'J'), ('k', 'K'), ('l', 'L'),
   ('m', 'M'), ('n', 'N'), ('o', 'O'), ('p', 'P'), ('q', 'Q'), ('r', 'R'),
   ('s', 'S'), ('t', 'T'), ('u', 'U'), ('v', 'V'), ('w', 'W'), ('x', 'X'),
   ('y', 'Y'), ('z', 'Z')]

/-- ASCII lowercasing of one character (`str.lower` restricted to ASCII). -/
def toLowerChar (c : Char) : Char :=
  match CASE_TABLE.find? (fun p => p.2 = c) with
  | some p => p.1
  | none => c

/-- ASCII uppercasing of one character (`str.upper` restricted to ASCII). -/
def toUpperChar (c : Char) : Char :=
  match CASE_TABLE.find? (fun p => p.1 = c) with
  | some p => p.2
  | none => c

/-- Latin accented letters mapped to their base letter.  Models the effect of
NFKD decomposition followed by removal of combining marks (`strip_accents`)
on the characters the vocabularies and commands use. -/
def ACCENT_TABLE : List (Char × Char) :=
  [('à', 'a'), ('â', 'a'), ('ä', 'a'), ('á', 'a'),
   ('è', 'e'), ('é', 'e'), ('ê', 'e'), ('ë', 'e'),
   ('ì', 'i'), ('í', 'i'), ('î', 'i'), ('ï', 'i'),
   ('ò', 'o'), ('ó', 'o'), ('ô', 'o'), ('ö', 'o'),
   ('ù', 'u'), ('ú', 'u'), ('û', 'u'), ('ü', 'u'),
   ('ç', 'c'), ('ñ', 'n'), ('ÿ', 'y'),
   ('À', 'A'), ('Â', 'A'), ('Ä', 'A'), ('Á', 'A'),
   ('È', 'E'), ('É', 'E'), ('Ê', 'E'), ('Ë', 'E'),
   ('Ì', 'I'), ('Í', 'I'), ('Î', 'I'), ('Ï', 'I'),
   ('Ò', 'O'), ('Ó', 'O'), ('Ô', 'O'), ('Ö', 'O'),
   ('Ù', 'U'), ('Ú', 'U'), ('Û', 'U'), ('Ü', 'U'),
   ('Ç', 'C'), ('Ñ', 'N')]

/-- One character of `strip_accents`. -/
def stripAccentChar (c : Char) : Char :=
  match ACCENT_TABLE.find? (fun p => p.1 = c) with
  | some p => p.2
  | none => c

/-- `strip_accents`: NFKD-decompose and drop combining marks (see
`ACCENT_TABLE` for the modelling of the Unicode tables). -/
def strip_accents (t : Tok) : Tok := t.map stripAccentChar

/-- `normalize_keyword`: strip accents, lowercase, then delete every character
that is not an ASCII lowercase letter or digit (`re.sub(r"[^a-z0-9]", "", _)`). -/
def normalize_keyword (t : Tok) : Tok :=
  ((strip_accents t).map toLowerChar).filter isLowerAlnumC

/-- `RAW_SIDE_KEYWORDS`: human-readable side vocabulary. -/
def RAW_SIDE_KEYWORDS : List (Tok × Tok) :=
  [(lit "buy", lit "BUY"), (lit "sell", lit "SELL"),
   (lit "acheter", lit "BUY"), (lit "achete", lit "BUY"),
   (lit "achète", lit "BUY"), (lit "achetez", lit "BUY"),
   (lit "achetons", lit "BUY"),
   (lit "vendre", lit "SELL"), (lit "vend", lit "SELL"),
   (lit "vends", lit "SELL"), (lit "vendez", lit "SELL")]

/-- `RAW_ORDER_TYPE_KEYWORDS`: human-readable order-type vocabulary. -/
def RAW_ORDER_TYPE_KEYWORDS : List (Tok × Tok) :=
  [(lit "market", lit "MARKET"), (lit "marche", lit "MARKET"),
   (lit "marché", lit "MARKET"),
   (lit "limit", lit "LIMIT"), (lit "limite", lit "LIMIT")]

/-- `SIDE_KEYWORDS`: side vocabulary keyed by normalized keyword. -/
def SIDE_KEYWORDS : List (Tok × Tok) :=
  RAW_SIDE_KEYWORDS.map (fun p => (normalize_keyword p.1, p.2))

/-- `ORDER_TYPE_KEYWORDS`: order-type vocabulary keyed by normalized keyword. -/
def ORDER_TYPE_KEYWORDS : List (Tok × Tok) :=
  RAW_ORDER_TYPE_KEYWORDS.map (fun p => (normalize_keyword p.1, p.2))

/-- `RAW_CALLBACK_RATE_KEYWORDS`. -/
def RAW_CALLBACK_RATE_KEYWORDS : List Tok :=
  [lit "callback", lit "callback_rate", lit "callbackrate", lit "callback%",
   lit "taux_callback", lit "taux_de_callback", lit "callback_pourcentage"]

/-- `CALLBACK_RATE_KEYWORDS`: normalized callback-rate marker vocabulary. -/
def CALLBACK_RATE_KEYWORDS : List Tok :=
  RAW_CALLBACK_RATE_KEYWORDS.map normalize_keyword

/-- `RAW_ACTIVATION_PRICE_KEYWORDS`. -/
def RAW_ACTIVATION_PRICE_KEYWORDS : List Tok :=
  [lit "activation", lit "activation_price", lit "activationprice",
   lit "prix_activation", lit "prix_dactivation", lit "activation_prix",
   lit "trigger", lit "trigger_price", lit "triggerprice",
   lit "prix_declenchement", lit "prixdeclenchement", lit "declenchement"]

/-- `ACTIVATION_PRICE_KEYWORDS`: normalized activation-price marker vocabulary. -/
def ACTIVATION_PRICE_KEYWORDS : List Tok :=
  RAW_ACTIVATION_PRICE_KEYWORDS.map normalize_keyword

/-- `ORDER_KEYWORDS`: union of all vocabulary keys (the exclusion set for
symbol detection).  Duplicates are irrelevant: only membership is used. -/
def ORDER_KEYWORDS : List Tok :=
  SIDE_KEYWORDS.map Prod.fst ++ ORDER_TYPE_KEYWORDS.map Prod.fst ++
    CALLBACK_RATE_KEYWORDS ++ ACTIVATION_PRICE_KEYWORDS

/-- `KNOWN_SYMBOL_SUFFIXES`: the closed set of known quote-asset suffixes.
The Python source stores them in a `set`; the list below fixes the
length-descending iteration order that `sorted(..., key=len, reverse=True)`
produces in `detect_quote_asset` (ties cannot matter: two same-length suffixes
of one string are equal). -/
def KNOWN_SYMBOL_SUFFIXES : List Tok :=
  [lit "FDUSD",
   lit "USDT", lit "USDC", lit "BUSD", lit "TUSD", lit "BIDR", lit "PAXG",
   lit "DAI", lit "BTC", lit "ETH", lit "BNB", lit "EUR", lit "GBP",
   lit "TRY", lit "BRL", lit "AUD"]

/-- Python `str.isalnum` on the ASCII strings the parser builds: nonempty and
all characters alphanumeric. -/
def pyIsAlnum (t : Tok) : Bool := !t.isEmpty && t.all isAlnumC

/-- `is_valid_candidate`: at least 5 characters, alphanumeric, and ending with
a known quote-asset suffix. -/
def is_valid_candidate (candidate : Tok) : Bool :=
  decide (5 ≤ candidate.length) && pyIsAlnum candidate &&
    KNOWN_SYMBOL_SUFFIXES.any (fun suffix => decide (suffix <:+ candidate))

/-- `detect_quote_asset`: first match over the suffix set iterated in
length-descending order. -/
def detect_quote_asset (symbol : Tok) : Option Tok :=
  KNOWN_SYMBOL_SUFFIXES.find? (fun suffix => decide (suffix <:+ symbol))

/-- `clean_symbol_token`: strip accents then delete every character that is
not ASCII alphanumeric (`re.sub(r"[^A-Za-z0-9]", "", _)`). -/
def clean_symbol_token (t : Tok) : Tok := (strip_accents t).filter isAlnumC

/-- Pass 1 acceptance test of `extract_symbol` for one (cleaned token,
keyword token) pair: skip empty tokens, vocabulary keywords and tokens
without letters; otherwise uppercase and test `is_valid_candidate`. -/
def acceptSingle (cleaned keywordTok : Tok) : Option Tok :=
  if cleaned.isEmpty then none
  else if keywordTok ∈ ORDER_KEYWORDS then none
  else if !cleaned.any isAlphaC then none
  else
    let candidate := cleaned.map toUpperChar
    if is_valid_candidate candidate then some candidate else none

/-- Pass 2 acceptance test of `extract_symbol` for one adjacent pair. -/
def acceptPair (first second firstKw secondKw : Tok) : Option Tok :=
  if first.isEmpty || second.isEmpty || firstKw ∈ ORDER_KEYWORDS ||
      secondKw ∈ ORDER_KEYWORDS then none
  else if !first.any isAlphaC || !second.any isAlphaC then none
  else
    let candidate := (first ++ second).map toUpperChar
    if is_valid_candidate candidate then some candidate else none

/-- Pass 1 of `extract_symbol`: first qualifying single token wins. -/
def symbolPass1 : List Tok → List Tok → Option Tok
  | [], _ => none
  | _, [] => none
  | c :: cs, k :: ks =>
    match acceptSingle c k with
    | some s => some s
    | none => symbolPass1 cs ks

/-- Pass 2 of `extract_symbol`: first qualifying adjacent pair wins. -/
def symbolPass2 : List Tok → List Tok → Option Tok
  | c1 :: c2 :: cs, k1 :: k2 :: ks =>
    match acceptPair c1 c2 k1 k2 with
    | some s => some s
    | none => symbolPass2 (c2 :: cs) (k2 :: ks)
  | _, _ => none

/-- `extract_symbol`: clean every raw token, then pass 1 (single tokens),
then — only if pass 1 found nothing — pass 2 (adjacent pairs). -/
def extract_symbol (rawTokens keywordTokens : List Tok) : Option Tok :=
  let cleaned := rawTokens.map clean_symbol_token
  match symbolPass1 cleaned keywordTokens with
  | some s => some s
  | none => symbolPass2 cleaned keywordTokens

/-- A `decimal.Decimal` value as produced by the parser: `num / 10 ^ scale`. -/
structure Dec where
  num : Int
  scale : Nat
deriving DecidableEq, Repr

/-- Zero-width look-ahead `(?![A-Za-z0-9])` of `NUMBER_PATTERN` at the given
remainder of the token. -/
def lookaheadOk : List Char → Bool
  | [] => true
  | c :: _ => !isAlnumC c

/-- Zero-width look-behind `(?<![A-Za-z0-9])` of `NUMBER_PATTERN`, given the
character preceding the match position (none at the start of the token). -/
def lookbehindOk : Option Char → Bool
  | none => true
  | some c => !isAlnumC c

/-- Match `\d+(?:[.,]\d+)?(?![A-Za-z0-9])` at the head of `l`, with the
regex's backtracking semantics: the fractional part is kept only when a
nonempty digit run follows the separator and the look-ahead then succeeds;
otherwise the match falls back to the integer part alone.  Returns the
matched characters and the remainder. -/
def matchDigits (l : List Char) : Option (List Char × List Char) :=
  let ds := l.takeWhile isDigitC
  let rest := l.dropWhile isDigitC
  if ds.isEmpty then none
  else
    match rest with
    | [] => some (ds, [])
    | sep :: rest2 =>
      if sep = '.' || sep = ',' then
        let ds2 := rest2.takeWhile isDigitC
        let rest3 := rest2.dropWhile isDigitC
        if !ds2.isEmpty && lookaheadOk rest3 then some (ds ++ sep :: ds2, rest3)
        else if lookaheadOk rest then some (ds, rest) else none
      else if lookaheadOk rest then some (ds, rest) else none

/-- Match `[+-]?\d+(?:[.,]\d+)?(?![A-Za-z0-9])` at the head of `l`. -/
def matchFrom : List Char → Option (List Char × List Char)
  | [] => none
  | c :: rest =>
    if c = '+' || c = '-' then
      (matchDigits rest).map (fun p => (c :: p.1, p.2))
    else matchDigits (c :: rest)

/-- `re.finditer(NUMBER_PATTERN, token)`: scan every position left to right,
attempt a match where the look-behind allows it, and block the positions
covered by an accepted match (`nf` is the next free position).  Returns the
(start position, matched characters) pairs in order. -/
def scanTok : Option Char → Nat → Nat → List Char → List (Nat × List Char)
  | _, _, _, [] => []
  | prev, pos, nf, c :: rest =>
    if nf ≤ pos && lookbehindOk prev then
      match matchFrom (c :: rest) with
      | some (m, _) => (pos, m) :: scanTok (some c) (pos + 1) (pos + m.length) rest
      | none => scanTok (some c) (pos + 1) nf rest
    else scanTok (some c) (pos + 1) nf rest

/-- All `NUMBER_PATTERN` matches of one token, with their start positions. -/
def findNumberMatches (t : Tok) : List (Nat × List Char) := scanTok none 0 0 t

/-- Numeric value of a digit run (most significant first). -/
def digitsVal (l : List Char) : Nat :=
  l.foldl (fun a c => a * 10 + (c.toNat - 48)) 0

/-- Map the decimal-separator comma to a dot (`match.group().replace(",", ".")`). -/
def commaToDot (c : Char) : Char := if c = ',' then '.' else c

/-- `Decimal(s)` restricted to the shapes `NUMBER_PATTERN` can produce after
comma normalization: optional sign, a digit run, optionally a dot and a digit
run.  Any other shape yields `none` (Python raises `InvalidOperation`, which
the caller silently skips). -/
def parseDec (l : List Char) : Option Dec :=
  let sgn : Int := match l with
    | '-' :: _ => -1
    | _ => 1
  let l1 : List Char := match l with
    | '+' :: r => r
    | '-' :: r => r
    | _ => l
  let ds := l1.takeWhile isDigitC
  let rest := l1.dropWhile isDigitC
  if ds.isEmpty then none
  else
    match rest with
    | [] => some ⟨sgn * digitsVal ds, 0⟩
    | '.' :: r2 =>
      let ds2 := r2.takeWhile isDigitC
      let r3 := r2.dropWhile isDigitC
      if ds2.isEmpty || !r3.isEmpty then none
      else some ⟨sgn * (digitsVal ds * 10 ^ ds2.length + digitsVal ds2), ds2.length⟩
    | _ => none

/-- `extract_numbers_with_indices`: for each token in order, every
`NUMBER_PATTERN` match, converted after comma normalization; matches whose
conversion fails are skipped.  Each value is paired with the index of the
token it came from. -/
def extract_numbers_with_indices (tokens : List Tok) : List (Nat × Dec) :=
  tokens.enum.flatMap (fun it =>
    (findNumberMatches it.2).filterMap (fun pm =>
      (parseDec (pm.2.map commaToDot)).map (fun v => (it.1, v))))

/-- `extract_numbers`: the values only. -/
def extract_numbers (tokens : List Tok) : List Dec :=
  (extract_numbers_with_indices tokens).map Prod.snd

/-- Strip trailing zeros of `num` against the scale (`Decimal.normalize` on
the nonzero finite decimals the parser produces). -/
def stripTrailingZeros : Int → Nat → Int × Nat
  | n, 0 => (n, 0)
  | n, k + 1 => if n % 10 = 0 then stripTrailingZeros (n / 10) k else (n, k + 1)

/-- Decimal digits of `n` (most significant first); `fuel` bounds the
recursion and any `fuel ≥ n` is enough. -/
def natDigitsAux : Nat → Nat → List Char
  | 0, _ => []
  | _, 0 => []
  | fuel + 1, n => natDigitsAux fuel (n / 10) ++ [Char.ofNat (48 + n % 10)]

/-- Decimal rendering of a natural number. -/
def natToDigits (n : Nat) : List Char :=
  if n = 0 then ['0'] else natDigitsAux n n

/-- `decimal_to_str`: `Decimal.normalize`, then plain (`"f"`) formatting, then
strip trailing zeros and a trailing dot; zero renders as "0". -/
def decimal_to_str (d : Dec) : Tok :=
  if d.num = 0 then lit "0"
  else
    let nk := stripTrailingZeros d.num d.scale
    let sign : List Char := if nk.1 < 0 then ['-'] else []
    let a := nk.1.natAbs
    let k := nk.2
    if k = 0 then sign ++ natToDigits a
    else
      let frac := natToDigits (a % 10 ^ k)
      sign ++ natToDigits (a / 10 ^ k) ++ ['.'] ++
        (List.replicate (k - frac.length) '0' ++ frac)

/-- Helper of `str.split()`: accumulate the current word (reversed) and split
on whitespace runs. -/
def splitWsAux : List Char → List Char → List Tok
  | [], cur => if cur.isEmpty then [] else [cur.reverse]
  | c :: rest, cur =>
    if isSpaceC c then
      if cur.isEmpty then splitWsAux rest [] else cur.reverse :: splitWsAux rest []
    else splitWsAux rest (c :: cur)

/-- `str.split()`: split on whitespace runs, ignoring leading and trailing
whitespace. -/
def splitWs (l : Tok) : List Tok := splitWsAux l []

/-- `str.strip()`: drop leading and trailing whitespace. -/
def pyStrip (l : Tok) : Tok :=
  ((l.dropWhile isSpaceC).reverse.dropWhile isSpaceC).reverse

/-- Dictionary lookup in an association list keyed by normalized keywords.
Duplicate keys in the source dictionaries always carry the same value, so
taking the first binding agrees with Python's last-wins insertion. -/
def lookupKw (table : List (Tok × Tok)) (key : Tok) : Option Tok :=
  (table.find? (fun p => p.1 = key)).map Prod.snd

/-- Side detection: value of the first keyword token present in
`SIDE_KEYWORDS`, if any. -/
def findSide (keywordTokens : List Tok) : Option Tok :=
  keywordTokens.findSome? (lookupKw SIDE_KEYWORDS)

/-- Order-type detection: value of the first keyword token present in
`ORDER_TYPE_KEYWORDS`, defaulting to MARKET. -/
def findOrderType (keywordTokens : List Tok) : Tok :=
  (keywordTokens.findSome? (lookupKw ORDER_TYPE_KEYWORDS)).getD (lit "MARKET")

/-- `ParsedOrder`: the output record of `parse_trade_command`. -/
structure ParsedOrder where
  side : Tok
  symbol : Tok
  order_type : Tok
  quantity : Tok
  price : Option Tok := none
  time_in_force : Option Tok := none
  quote_asset : Option Tok := none
  quote : Option Tok := none
  callback : Option Tok := none
  activation_price : Option Tok := none
deriving DecidableEq, Repr

/-- `CommandParsingError`, one constructor per raise site of
`parse_trade_command`. -/
inductive CommandParsingError where
  | sideMissing
  | symbolMissing
  | quantityMissing
  | quantityNonpos
  | priceMissing
  | priceNonpos
  | callbackNonpos
  | activationNonpos
deriving DecidableEq, Repr

/-- The French diagnostic message attached to each raise site. -/
def CommandParsingError.message : CommandParsingError → Tok
  | .sideMissing => lit "Impossible de déterminer si l'ordre est un achat ou une vente."
  | .symbolMissing => lit "Impossible de déterminer le symbole à trader."
  | .quantityMissing => lit "Impossible de déterminer la quantité à trader."
  | .quantityNonpos => lit "La quantité doit être supérieure à zéro."
  | .priceMissing => lit "Une commande limite nécessite un prix."
  | .priceNonpos => lit "Le prix doit être supérieur à zéro."
  | .callbackNonpos => lit "Le callback doit être supérieur à zéro."
  | .activationNonpos => lit "Le prix d'activation doit être supérieur à zéro."

/-- Ghost record of which extracted numbers each field claimed: for each
assigned field, the position of its entry in the `extract_numbers_with_indices`
list and that entry's token index. -/
structure ClaimInfo where
  q : Nat × Nat
  p : Option (Nat × Nat) := none
  cb : Option (Nat × Nat) := none
  act : Option (Nat × Nat) := none
deriving DecidableEq, Repr

/-- Inner loop of `find_number_after_keywords`: first entry of `numbers`
whose token index is unclaimed and at or after keyword position `idx`.
Returns (position in the numbers list, token index, value). -/
def pickNumber (numbers : List (Nat × Dec)) (used : List Nat) (idx : Nat) :
    Option (Nat × Nat × Dec) :=
  (numbers.enum.find? (fun e => !used.contains e.2.1 && decide (idx ≤ e.2.1))).map
    (fun e => (e.1, e.2))

/-- Outer loop of `find_number_after_keywords`: try every keyword occurrence
in order until a number is claimed. -/
def findNumAfterAux (keywords : List Tok) (numbers : List (Nat × Dec))
    (used : List Nat) : Nat → List Tok → Option (Nat × Nat × Dec)
  | _, [] => none
  | idx, kw :: rest =>
    if kw ∈ keywords then
      match pickNumber numbers used idx with
      | some r => some r
      | none => findNumAfterAux keywords numbers used (idx + 1) rest
    else findNumAfterAux keywords numbers used (idx + 1) rest

/-- `find_number_after_keywords`: scan keyword tokens left to right; at each
occurrence of a keyword from `keywords`, search the extracted numbers for the
first one whose token index is unclaimed and at or after the keyword's
position. -/
def findNumberAfterKeywords (keywords : List Tok) (keywordTokens : List Tok)
    (numbers : List (Nat × Dec)) (used : List Nat) : Option (Nat × Nat × Dec) :=
  findNumAfterAux keywords numbers used 0 keywordTokens

/-- Raw whitespace tokens of a command (`command.strip().split()`). -/
def rawTokensOf (command : Tok) : List Tok := splitWs (pyStrip command)

/-- Normalized keyword form of every raw token. -/
def keywordTokensOf (command : Tok) : List Tok :=
  (rawTokensOf command).map normalize_keyword

/-- The extracted numbers of a command, with token indices. -/
def numbersOf (command : Tok) : List (Nat × Dec) :=
  extract_numbers_with_indices (rawTokensOf command)

/-- Final construction step of `parse_trade_command`: build the `ParsedOrder`
(and the ghost `ClaimInfo`). -/
def buildOrder (side symbol order_type : Tok) (qIdx : Nat) (q : Dec)
    (priceInfo : Option (Nat × Dec)) (cb act : Option (Nat × Nat × Dec)) :
    Except CommandParsingError (ParsedOrder × ClaimInfo) :=
  let quote_asset := detect_quote_asset symbol
  .ok
    ({ side := side
       symbol := symbol
       order_type := order_type
       quantity := decimal_to_str q
       price := priceInfo.map (fun pr => decimal_to_str pr.2)
       time_in_force := if order_type = lit "LIMIT" then some (lit "GTC") else none
       quote_asset := quote_asset
       quote := quote_asset
       callback := cb.map (fun r => decimal_to_str r.2.2)
       activation_price := act.map (fun r => decimal_to_str r.2.2) },
     { q := (0, qIdx)
       p := priceInfo.map (fun pr => (1, pr.1))
       cb := cb.map (fun r => (r.1, r.2.1))
       act := act.map (fun r => (r.1, r.2.1)) })

/-- Activation-price step of `parse_trade_command`: keyword-proximity search,
positivity check, then construction. -/
def stepActivation (side symbol order_type : Tok) (keywordTokens : List Tok)
    (numbers : List (Nat × Dec)) (qIdx : Nat) (q : Dec)
    (priceInfo : Option (Nat × Dec)) (cb : Option (Nat × Nat × Dec))
    (used : List Nat) : Except CommandParsingError (ParsedOrder × ClaimInfo) :=
  match findNumberAfterKeywords ACTIVATION_PRICE_KEYWORDS keywordTokens numbers used with
  | some r =>
    if r.2.2.num ≤ 0 then .error .activationNonpos
    else buildOrder side symbol order_type qIdx q priceInfo cb (some r)
  | none => buildOrder side symbol order_type qIdx q priceInfo cb none

/-- Callback-rate step of `parse_trade_command`: keyword-proximity search,
positivity check, then the activation step with the claimed token index added
to the used set. -/
def stepCallback (side symbol order_type : Tok) (keywordTokens : List Tok)
    (numbers : List (Nat × Dec)) (qIdx : Nat) (q : Dec)
    (priceInfo : Option (Nat × Dec)) (used : List Nat) :
    Except CommandParsingError (ParsedOrder × ClaimInfo) :=
  match findNumberAfterKeywords CALLBACK_RATE_KEYWORDS keywordTokens numbers used with
  | some r =>
    if r.2.2.num ≤ 0 then .error .callbackNonpos
    else stepActivation side symbol order_type keywordTokens numbers qIdx q
      priceInfo (some r) (used ++ [r.2.1])
  | none => stepActivation side symbol order_type keywordTokens numbers qIdx q
      priceInfo none used

/-- Price step of `parse_trade_command`: when the order type is LIMIT, the
second extracted number is the price (it must exist and be positive) and its
token index is claimed. -/
def stepPrice (side symbol order_type : Tok) (keywordTokens : List Tok)
    (numbers : List (Nat × Dec)) (qIdx : Nat) (q : Dec) :
    Except CommandParsingError (ParsedOrder × ClaimInfo) :=
  if order_type = lit "LIMIT" then
    match numbers.get? 1 with
    | none => .error .priceMissing
    | some pr =>
      if pr.2.num ≤ 0 then .error .priceNonpos
      else stepCallback side symbol order_type keywordTokens numbers qIdx q
        (some pr) [qIdx, pr.1]
  else stepCallback side symbol order_type keywordTokens numbers qIdx q none [qIdx]

/-- `parse_trade_command`, with the ghost `ClaimInfo` alongside the order. -/
def parseDetailed (command : Tok) :
    Except CommandParsingError (ParsedOrder × ClaimInfo) :=
  match findSide (keywordTokensOf command) with
  | none => .error .sideMissing
  | some side =>
    match extract_symbol (rawTokensOf command) (keywordTokensOf command) with
    | none => .error .symbolMissing
    | some symbol =>
      match numbersOf command with
      | [] => .error .quantityMissing
      | (qIdx, q) :: _ =>
        if q.num ≤ 0 then .error .quantityNonpos
        else stepPrice side symbol (findOrderType (keywordTokensOf command))
          (keywordTokensOf command) (numbersOf command) qIdx q

/-- `parse_trade_command`: the Python entry point. -/
def parse_trade_command (command : Tok) : Except CommandParsingError ParsedOrder :=
  (parseDetailed command).map Prod.fst

deriving instance DecidableEq for Except

/-! ### Properties of the normalizer -/

theorem accent_keys_not_lower_alnum :
    ACCENT_TABLE.all (fun p => !isLowerAlnumC p.1) = true := by decide

theorem stripAccentChar_fixed {c : Char} (h : isLowerAlnumC c = true) :
    stripAccentChar c = c := by
  unfold stripAccentChar
  cases hf : ACCENT_TABLE.find? (fun p => p.1 = c) with
  | none => rfl
  | some p =>
    exfalso
    have hp := List.find?_some hf
    have hmem := List.mem_of_find?_eq_some hf
    have hkey : p.1 = c := by exact of_decide_eq_true hp
    have hall := List.all_eq_true.mp accent_keys_not_lower_alnum p hmem
    rw [hkey] at hall
    simp [h] at hall

theorem case_values_not_lower_alnum :
    CASE_TABLE.all (fun p => !isLowerAlnumC p.2) = true := by decide

theorem toLowerChar_fixed {c : Char} (h : isLowerAlnumC c = true) :
    toLowerChar c = c := by
  unfold toLowerChar
  cases hf : CASE_TABLE.find? (fun p => p.2 = c) with
  | none => rfl
  | some p =>
    exfalso
    have hp := List.find?_some hf
    have hmem := List.mem_of_find?_eq_some hf
    have hkey : p.2 = c := of_decide_eq_true hp
    have hall := List.all_eq_true.mp case_values_not_lower_alnum p hmem
    rw [hkey] at hall
    simp [h] at hall

/-- Claim C9: `normalize_keyword` is idempotent, total with empty output on
empty input, and produces only ASCII lowercase letters and digits. -/
theorem normalize_keyword_idempotent_and_ascii :
    (∀ t : Tok, normalize_keyword (normalize_keyword t) = normalize_keyword t) ∧
    (∀ t : Tok, ∀ c ∈ normalize_keyword t, isLowerAlnumC c = true) ∧
    normalize_keyword [] = [] := by
  have hchars : ∀ t : Tok, ∀ c ∈ normalize_keyword t, isLowerAlnumC c = true := by
    intro t c hc
    exact List.of_mem_filter hc
  refine ⟨?_, hchars, rfl⟩
  intro t
  set u := normalize_keyword t with hu
  have hstrip : strip_accents u = u := by
    unfold strip_accents
    rw [List.map_congr_left (fun c hc => stripAccentChar_fixed (hchars t c hc))]
    exact List.map_id' u
  unfold normalize_keyword
  rw [hstrip]
  rw [List.map_congr_left (fun c hc => toLowerChar_fixed (hchars t c hc))]
  rw [List.map_id']
  exact List.filter_eq_self.mpr (hchars t)
def priceUsed (qIdx : Nat) : Option (Nat × Dec) → List Nat
  | some pr => [qIdx, pr.1]
  | none => [qIdx]

def cbUsed (used : List Nat) : Option (Nat × Nat × Dec) → List Nat
  | some r => used ++ [r.2.1]
  | none => used

theorem buildOrder_inv {side symbol ot : Tok} {qIdx : Nat} {q : Dec}
    {priceInfo : Option (Nat × Dec)} {cb act : Option (Nat × Nat × Dec)}
    {x : ParsedOrder × ClaimInfo}
    (h : buildOrder side symbol ot qIdx q priceInfo cb act = .ok x) :
    x = ({ side := side, symbol := symbol, order_type := ot,
           quantity := decimal_to_str q,
           price := priceInfo.map (fun pr => decimal_to_str pr.2),
           time_in_force := if ot = lit "LIMIT" then some (lit "GTC") else none,
           quote_asset := detect_quote_asset symbol,
           quote := detect_quote_asset symbol,
           callback := cb.map (fun r => decimal_to_str r.2.2),
           activation_price := act.map (fun r => decimal_to_str r.2.2) },
         { q := (0, qIdx), p := priceInfo.map (fun pr => (1, pr.1)),
           cb := cb.map (fun r => (r.1, r.2.1)),
           act := act.map (fun r => (r.1, r.2.1)) }) := by
  unfold buildOrder at h
  exact (Except.ok.inj h).symm

theorem stepActivation_inv {side symbol ot : Tok} {kts : List Tok}
    {ns : List (Nat × Dec)} {qIdx : Nat} {q : Dec}
    {priceInfo : Option (Nat × Dec)} {cb : Option (Nat × Nat × Dec)}
    {used : List Nat} {x : ParsedOrder × ClaimInfo}
    (h : stepActivation side symbol ot kts ns qIdx q priceInfo cb used = .ok x) :
    ∃ act,
      ((∃ r, findNumberAfterKeywords ACTIVATION_PRICE_KEYWORDS kts ns used = some r ∧
          ¬ r.2.2.num ≤ 0 ∧ act = some r) ∨
        (findNumberAfterKeywords ACTIVATION_PRICE_KEYWORDS kts ns used = none ∧ act = none)) ∧
      buildOrder side symbol ot qIdx q priceInfo cb act = .ok x := by
  unfold stepActivation at h
  split at h
  next r hr =>
    split at h
    next => simp at h
    next hpos => exact ⟨some r, .inl ⟨r, hr, hpos, rfl⟩, h⟩
  next hr => exact ⟨none, .inr ⟨hr, rfl⟩, h⟩

theorem stepCallback_inv {side symbol ot : Tok} {kts : List Tok}
    {ns : List (Nat × Dec)} {qIdx : Nat} {q : Dec}
    {priceInfo : Option (Nat × Dec)} {used : List Nat}
    {x : ParsedOrder × ClaimInfo}
    (h : stepCallback side symbol ot kts ns qIdx q priceInfo used = .ok x) :
    ∃ cb,
      ((∃ r, findNumberAfterKeywords CALLBACK_RATE_KEYWORDS kts ns used = some r ∧
          ¬ r.2.2.num ≤ 0 ∧ cb = some r) ∨
        (findNumberAfterKeywords CALLBACK_RATE_KEYWORDS kts ns used = none ∧ cb = none)) ∧
      stepActivation side symbol ot kts ns qIdx q priceInfo cb (cbUsed used cb) = .ok x := by
  unfold stepCallback at h
  split at h
  next r hr =>
    split at h
    next => simp at h
    next hpos => exact ⟨some r, .inl ⟨r, hr, hpos, rfl⟩, h⟩
  next hr => exact ⟨none, .inr ⟨hr, rfl⟩, h⟩

theorem stepPrice_inv {side symbol ot : Tok} {kts : List Tok}
    {ns : List (Nat × Dec)} {qIdx : Nat} {q : Dec} {x : ParsedOrder × ClaimInfo}
    (h : stepPrice side symbol ot kts ns qIdx q = .ok x) :
    ∃ priceInfo,
      ((ot = lit "LIMIT" ∧ ∃ pr, ns.get? 1 = some pr ∧ ¬ pr.2.num ≤ 0 ∧
          priceInfo = some pr) ∨
        (¬ ot = lit "LIMIT" ∧ priceInfo = none)) ∧
      stepCallback side symbol ot kts ns qIdx q priceInfo
        (priceUsed qIdx priceInfo) = .ok x := by
  unfold stepPrice at h
  split at h
  next hlimit =>
    split at h
    next => simp at h
    next pr hpr =>
      split at h
      next => simp at h
      next hpos => exact ⟨some pr, .inl ⟨hlimit, pr, hpr, hpos, rfl⟩, h⟩
  next hlimit => exact ⟨none, .inr ⟨hlimit, rfl⟩, h⟩

theorem parseDetailed_ok_inv {cmd : Tok} {x : ParsedOrder × ClaimInfo}
    (h : parseDetailed cmd = .ok x) :
    ∃ side symbol qIdx q rest,
      findSide (keywordTokensOf cmd) = some side ∧
      extract_symbol (rawTokensOf cmd) (keywordTokensOf cmd) = some symbol ∧
      numbersOf cmd = (qIdx, q) :: rest ∧
      ¬ q.num ≤ 0 ∧
      stepPrice side symbol (findOrderType (keywordTokensOf cmd))
        (keywordTokensOf cmd) (numbersOf cmd) qIdx q = .ok x := by
  unfold parseDetailed at h
  split at h
  next => simp at h
  next side hside =>
    split at h
    next => simp at h
    next symbol hsym =>
      split at h
      next => simp at h
      next qIdx q rest hnum =>
        split at h
        next => simp at h
        next hq => exact ⟨side, symbol, qIdx, q, rest, hside, hsym, hnum, hq, h⟩

theorem parse_ok_iff {cmd : Tok} {o : ParsedOrder} :
    parse_trade_command cmd = .ok o ↔ ∃ cl, parseDetailed cmd = .ok (o, cl) := by
  unfold parse_trade_command
  cases hd : parseDetailed cmd with
  | error e => simp [Except.map]
  | ok a =>
    cases a with
    | mk o' cl' => simp [Except.map]

theorem parse_error_iff {cmd : Tok} {e : CommandParsingError} :
    parse_trade_command cmd = .error e ↔ parseDetailed cmd = .error e := by
  unfold parse_trade_command
  cases hd : parseDetailed cmd with
  | error e' => simp [Except.map]
  | ok a => simp [Except.map]

/-! ### Claim C10: the `quote` field mirrors `quote_asset` -/

/-- Claim C10: every `ParsedOrder` returned by `parse_trade_command` carries
the extra `quote` field equal to `quote_asset` (the same detected suffix, or
both absent). -/
theorem quote_field_mirrors_quote_asset (cmd : Tok) (o : ParsedOrder)
    (h : parse_trade_command cmd = .ok o) : o.quote = o.quote_asset := by
  obtain ⟨cl, hd⟩ := parse_ok_iff.mp h
  obtain ⟨side, symbol, qIdx, q, rest, -, -, -, -, hp⟩ := parseDetailed_ok_inv hd
  obtain ⟨priceInfo, -, hc⟩ := stepPrice_inv hp
  obtain ⟨cb, -, ha⟩ := stepCallback_inv hc
  obtain ⟨act, -, hb⟩ := stepActivation_inv ha
  have ho : o = _ := congrArg Prod.fst (buildOrder_inv hb)
  subst ho
  rfl

/-- Witness for C10 at a concrete successfully parsed command. -/
theorem quote_field_mirrors_quote_asset_witness :
    parse_trade_command (lit "achetez 5 sol usdt") =
      .ok { side := lit "BUY", symbol := lit "SOLUSDT", order_type := lit "MARKET",
            quantity := lit "5", quote_asset := some (lit "USDT"),
            quote := some (lit "USDT") } ∧
    ({ side := lit "BUY", symbol := lit "SOLUSDT", order_type := lit "MARKET",
       quantity := lit "5", quote_asset := some (lit "USDT"),
       quote := some (lit "USDT") } : ParsedOrder).quote =
      ({ side := lit "BUY", symbol := lit "SOLUSDT", order_type := lit "MARKET",
         quantity := lit "5", quote_asset := some (lit "USDT"),
         quote := some (lit "USDT") } : ParsedOrder).quote_asset :=
  ⟨by decide, quote_field_mirrors_quote_asset (lit "achetez 5 sol usdt") _ (by decide)⟩

/-! ### Claims C1 and C2: trailing-order keywords -/

/-- Claim C1 (code bug): the order-type vocabulary of
`command_parser.py` has no trailing-order keyword, so the spec's trailing
example `"achetez 0,25 btcusdt trailing 0,5 activation 20000"` parses with
`order_type = "MARKET"` (not TRAILING_STOP_MARKET) and no callback rate
(the repository's own test expects TRAILING_STOP_MARKET and
callback_rate = "0.5" here). -/
theorem trailing_keyword_not_recognized :
    parse_trade_command (lit "achetez 0,25 btcusdt trailing 0,5 activation 20000") =
      .ok { side := lit "BUY", symbol := lit "BTCUSDT",
            order_type := lit "MARKET", quantity := lit "0.25",
            price := none, time_in_force := none,
            quote_asset := some (lit "USDT"), quote := some (lit "USDT"),
            callback := none, activation_price := some (lit "20000") } := by
  decide

/-- Claim C2 (code bug): a trailing-order command with no callback rate is
accepted by `parse_trade_command` instead of raising — "trailing" is not in
any vocabulary, so the command parses as a plain MARKET order (the
repository's own test expects a `CommandParsingError` here). -/
theorem trailing_without_callback_accepted :
    parse_trade_command (lit "achetez 1 btcusdt trailing") =
      .ok { side := lit "BUY", symbol := lit "BTCUSDT",
            order_type := lit "MARKET", quantity := lit "1",
            price := none, time_in_force := none,
            quote_asset := some (lit "USDT"), quote := some (lit "USDT"),
            callback := none, activation_price := none } := by
  decide
/-- Claim C3: the first extracted number (in token order) becomes the
quantity; no number at all is a `CommandParsingError`, as is a first number
that is not strictly positive. -/
theorem quantity_from_first_number :
    (∀ cmd o, parse_trade_command cmd = .ok o →
      ∃ qIdx q rest, numbersOf cmd = (qIdx, q) :: rest ∧
        o.quantity = decimal_to_str q ∧ 0 < q.num) ∧
    (∀ cmd sd sym, findSide (keywordTokensOf cmd) = some sd →
      extract_symbol (rawTokensOf cmd) (keywordTokensOf cmd) = some sym →
      numbersOf cmd = [] →
      parse_trade_command cmd = .error .quantityMissing) ∧
    (∀ cmd sd sym qIdx q rest, findSide (keywordTokensOf cmd) = some sd →
      extract_symbol (rawTokensOf cmd) (keywordTokensOf cmd) = some sym →
      numbersOf cmd = (qIdx, q) :: rest → q.num ≤ 0 →
      parse_trade_command cmd = .error .quantityNonpos) := by
  refine ⟨?_, ?_, ?_⟩
  · intro cmd o h
    obtain ⟨cl, hd⟩ := parse_ok_iff.mp h
    obtain ⟨side, symbol, qIdx, q, rest, -, -, hnum, hq, hp⟩ := parseDetailed_ok_inv hd
    obtain ⟨priceInfo, -, hc⟩ := stepPrice_inv hp
    obtain ⟨cb, -, ha⟩ := stepCallback_inv hc
    obtain ⟨act, -, hb⟩ := stepActivation_inv ha
    have ho : o = _ := congrArg Prod.fst (buildOrder_inv hb)
    subst ho
    exact ⟨qIdx, q, rest, hnum, rfl, by omega⟩
  · intro cmd sd sym hside hsym hnum
    rw [parse_error_iff]
    unfold parseDetailed
    rw [hside, hsym, hnum]
  · intro cmd sd sym qIdx q rest hside hsym hnum hq
    rw [parse_error_iff]
    unfold parseDetailed
    rw [hside, hsym, hnum]
    simp [hq]

/-- Witness for C3: a command with no number fails with the quantity-missing
error, and a command whose first number is negative fails with the
nonpositive-quantity error. -/
theorem quantity_from_first_number_witness :
    parse_trade_command (lit "buy btcusdt") = .error .quantityMissing ∧
    parse_trade_command (lit "acheter -1 btcusdt") = .error .quantityNonpos :=
  ⟨quantity_from_first_number.2.1 (lit "buy btcusdt") (lit "BUY") (lit "BTCUSDT")
      (by decide) (by decide) (by decide),
   quantity_from_first_number.2.2 (lit "acheter -1 btcusdt") (lit "BUY")
      (lit "BTCUSDT") 1 ⟨-1, 0⟩ [] (by decide) (by decide) (by decide) (by decide)⟩
/-- Claim C4: under order type LIMIT the second extracted number becomes the
price (missing or nonpositive price is an error) and `time_in_force` is
"GTC"; under any other order type both `price` and `time_in_force` are
absent. -/
theorem limit_price_and_time_in_force :
    (∀ cmd sd sym qIdx q rest,
      findSide (keywordTokensOf cmd) = some sd →
      extract_symbol (rawTokensOf cmd) (keywordTokensOf cmd) = some sym →
      numbersOf cmd = (qIdx, q) :: rest → ¬ q.num ≤ 0 →
      findOrderType (keywordTokensOf cmd) = lit "LIMIT" →
      ((rest = [] → parse_trade_command cmd = .error .priceMissing) ∧
       (∀ pIdx p rest2, rest = (pIdx, p) :: rest2 →
         (p.num ≤ 0 → parse_trade_command cmd = .error .priceNonpos) ∧
         (∀ o, parse_trade_command cmd = .ok o →
           o.price = some (decimal_to_str p) ∧
           o.time_in_force = some (lit "GTC"))))) ∧
    (∀ cmd o, ¬ findOrderType (keywordTokensOf cmd) = lit "LIMIT" →
      parse_trade_command cmd = .ok o →
      o.price = none ∧ o.time_in_force = none) := by
  constructor
  · intro cmd sd sym qIdx q rest hside hsym hnum hq hlimit
    constructor
    · intro hrest
      subst hrest
      rw [parse_error_iff]
      unfold parseDetailed
      rw [hside, hsym, hnum]
      simp [hq, stepPrice, hlimit, hnum]
    · intro pIdx p rest2 hrest
      subst hrest
      constructor
      · intro hple
        rw [parse_error_iff]
        unfold parseDetailed
        rw [hside, hsym, hnum]
        simp [hq, stepPrice, hlimit, hnum, hple]
      · intro o h
        obtain ⟨cl, hd⟩ := parse_ok_iff.mp h
        obtain ⟨side, symbol, qIdx', q', rest', -, -, hnum', -, hp⟩ :=
          parseDetailed_ok_inv hd
        obtain ⟨priceInfo, hpi, hc⟩ := stepPrice_inv hp
        obtain ⟨cb, -, ha⟩ := stepCallback_inv hc
        obtain ⟨act, -, hb⟩ := stepActivation_inv ha
        have ho : o = _ := congrArg Prod.fst (buildOrder_inv hb)
        subst ho
        rcases hpi with ⟨-, pr, hpr, -, hpi⟩ | ⟨hnl, -⟩
        · subst hpi
          rw [hnum'] at hnum
          cases hnum
          rw [hnum', List.get?_cons_succ, List.get?_cons_zero] at hpr
          cases hpr
          exact ⟨rfl, by simp [hlimit]⟩
        · exact absurd hlimit hnl
  · intro cmd o hnl h
    obtain ⟨cl, hd⟩ := parse_ok_iff.mp h
    obtain ⟨side, symbol, qIdx, q, rest, -, -, -, -, hp⟩ := parseDetailed_ok_inv hd
    obtain ⟨priceInfo, hpi, hc⟩ := stepPrice_inv hp
    obtain ⟨cb, -, ha⟩ := stepCallback_inv hc
    obtain ⟨act, -, hb⟩ := stepActivation_inv ha
    have ho : o = _ := congrArg Prod.fst (buildOrder_inv hb)
    subst ho
    rcases hpi with ⟨hl, -⟩ | ⟨-, hpi⟩
    · exact absurd hl hnl
    · subst hpi
      exact ⟨rfl, by simp [hnl]⟩

/-- Witness for C4: a LIMIT command with a single number fails with the
price-missing error, and a MARKET command parses with `price` and
`time_in_force` absent. -/
theorem limit_price_and_time_in_force_witness :
    parse_trade_command (lit "vendre 2 eth usdt limit") = .error .priceMissing ∧
    (({ side := lit "BUY", symbol := lit "BTCUSDT", order_type := lit "MARKET",
        quantity := lit "0.1", quote_asset := some (lit "USDT"),
        quote := some (lit "USDT") } : ParsedOrder).price = none ∧
      ({ side := lit "BUY", symbol := lit "BTCUSDT", order_type := lit "MARKET",
         quantity := lit "0.1", quote_asset := some (lit "USDT"),
         quote := some (lit "USDT") } : ParsedOrder).time_in_force = none) :=
  ⟨(limit_price_and_time_in_force.1 (lit "vendre 2 eth usdt limit") (lit "SELL")
      (lit "ETHUSDT") 1 ⟨2, 0⟩ [] (by decide) (by decide) (by decide) (by decide)
      (by decide)).1 rfl,
   limit_price_and_time_in_force.2 (lit "Achète 0,1 BTCUSDT au marché")
     { side := lit "BUY", symbol := lit "BTCUSDT", order_type := lit "MARKET",
       quantity := lit "0.1", quote_asset := some (lit "USDT"),
       quote := some (lit "USDT") } (by decide) (by decide)⟩
theorem case_pairs_alnum :
    CASE_TABLE.all (fun p => isAlnumC p.1 && isAlnumC p.2) = true := by decide

theorem isAlnumC_toUpperChar (c : Char) : isAlnumC (toUpperChar c) = isAlnumC c := by
  unfold toUpperChar
  cases hf : CASE_TABLE.find? (fun p => p.1 = c) with
  | none => rfl
  | some p =>
    have hp := List.find?_some hf
    have hmem := List.mem_of_find?_eq_some hf
    have hkey : p.1 = c := of_decide_eq_true hp
    have hall := List.all_eq_true.mp case_pairs_alnum p hmem
    rw [Bool.and_eq_true] at hall
    rw [← hkey, hall.1, hall.2]

theorem clean_all_alnum (t : Tok) : ∀ c ∈ clean_symbol_token t, isAlnumC c = true :=
  fun _ hc => List.of_mem_filter hc

theorem upper_all_alnum {l : Tok} (hl : ∀ c ∈ l, isAlnumC c = true) :
    ∀ c ∈ l.map toUpperChar, isAlnumC c = true := by
  intro c hc
  rw [List.mem_map] at hc
  obtain ⟨d, hd, rfl⟩ := hc
  rw [isAlnumC_toUpperChar]
  exact hl d hd

theorem pyIsAlnum_of {l : Tok} (hne : l ≠ [])
    (hall : ∀ c ∈ l, isAlnumC c = true) : pyIsAlnum l = true := by
  unfold pyIsAlnum
  rw [Bool.and_eq_true]
  exact ⟨by simpa [List.isEmpty_iff] using hne, List.all_eq_true.mpr hall⟩

theorem is_valid_eq {cand : Tok} (hall : ∀ c ∈ cand, isAlnumC c = true) :
    is_valid_candidate cand =
      (decide (5 ≤ cand.length) &&
        KNOWN_SYMBOL_SUFFIXES.any (fun suffix => decide (suffix <:+ cand))) := by
  unfold is_valid_candidate
  by_cases h5 : 5 ≤ cand.length
  · have hne : cand ≠ [] := by
      intro h
      rw [h] at h5
      simp at h5
    rw [pyIsAlnum_of hne hall]
    simp
  · simp [h5]

/-- The spec's wording of the pass-1 acceptance rule (§4.3 pass 1): clean the
token, skip it if its normalized form is a vocabulary keyword or it has no
letter, uppercase it, and accept it when it is at least 5 characters long and
ends with a known quote-asset suffix. -/
def specAcceptSingle (t : Tok) : Option Tok :=
  if normalize_keyword t ∈ ORDER_KEYWORDS then none
  else if !(clean_symbol_token t).any isAlphaC then none
  else
    let candidate := (clean_symbol_token t).map toUpperChar
    if decide (5 ≤ candidate.length) &&
        KNOWN_SYMBOL_SUFFIXES.any (fun suffix => decide (suffix <:+ candidate)) then
      some candidate
    else none

/-- The spec's wording of the pass-2 acceptance rule (§4.3 pass 2): skip the
pair if either token is a vocabulary keyword or lacks letters, concatenate
the cleaned tokens, and accept under the same suffix-and-length rule. -/
def specAcceptPair (t1 t2 : Tok) : Option Tok :=
  if normalize_keyword t1 ∈ ORDER_KEYWORDS ∨ normalize_keyword t2 ∈ ORDER_KEYWORDS then
    none
  else if !(clean_symbol_token t1).any isAlphaC ||
      !(clean_symbol_token t2).any isAlphaC then none
  else
    let candidate := (clean_symbol_token t1 ++ clean_symbol_token t2).map toUpperChar
    if decide (5 ≤ candidate.length) &&
        KNOWN_SYMBOL_SUFFIXES.any (fun suffix => decide (suffix <:+ candidate)) then
      some candidate
    else none

/-- Spec-level pass 1: first qualifying single token wins. -/
def specPass1 : List Tok → Option Tok
  | [] => none
  | t :: ts =>
    match specAcceptSingle t with
    | some s => some s
    | none => specPass1 ts

/-- Spec-level pass 2: first qualifying adjacent pair wins. -/
def specPass2 : List Tok → Option Tok
  | t1 :: t2 :: ts =>
    match specAcceptPair t1 t2 with
    | some s => some s
    | none => specPass2 (t2 :: ts)
  | _ => none

/-- The spec's two-pass symbol search: pass 2 is only reached when pass 1
finds nothing. -/
def specExtractSymbol (rawTokens : List Tok) : Option Tok :=
  match specPass1 rawTokens with
  | some s => some s
  | none => specPass2 rawTokens

theorem acceptSingle_eq_spec (t : Tok) :
    acceptSingle (clean_symbol_token t) (normalize_keyword t) = specAcceptSingle t := by
  unfold acceptSingle specAcceptSingle
  by_cases hk : normalize_keyword t ∈ ORDER_KEYWORDS
  · by_cases he : (clean_symbol_token t).isEmpty <;> simp [hk, he]
  · by_cases he : (clean_symbol_token t).isEmpty
    · have ht : clean_symbol_token t = [] := by simpa [List.isEmpty_iff] using he
      simp [hk, he, ht]
    · by_cases ha : (clean_symbol_token t).any isAlphaC
      · simp only [he, hk, ha, Bool.not_true, Bool.false_eq_true, if_false,
          if_neg, Bool.not_eq_true]
        rw [is_valid_eq (upper_all_alnum (clean_all_alnum t))]
      · simp [hk, he, ha]

theorem acceptPair_eq_spec (t1 t2 : Tok) :
    acceptPair (clean_symbol_token t1) (clean_symbol_token t2)
      (normalize_keyword t1) (normalize_keyword t2) = specAcceptPair t1 t2 := by
  unfold acceptPair specAcceptPair
  by_cases hk : normalize_keyword t1 ∈ ORDER_KEYWORDS ∨
      normalize_keyword t2 ∈ ORDER_KEYWORDS
  · by_cases he1 : (clean_symbol_token t1).isEmpty <;>
      by_cases he2 : (clean_symbol_token t2).isEmpty <;>
        rcases hk with hk | hk <;> simp [hk, he1, he2]
  · rw [not_or] at hk
    by_cases he1 : (clean_symbol_token t1).isEmpty
    · have ht : clean_symbol_token t1 = [] := by simpa [List.isEmpty_iff] using he1
      simp [hk.1, hk.2, he1, ht]
    · by_cases he2 : (clean_symbol_token t2).isEmpty
      · have ht : clean_symbol_token t2 = [] := by simpa [List.isEmpty_iff] using he2
        simp [hk.1, hk.2, he1, he2, ht]
      · by_cases ha1 : (clean_symbol_token t1).any isAlphaC
        · by_cases ha2 : (clean_symbol_token t2).any isAlphaC
          · simp only [he1, he2, hk.1, hk.2, ha1, ha2, Bool.not_true,
              Bool.or_self, Bool.false_or, Bool.or_false, Bool.false_eq_true,
              if_false, if_neg, not_or, Bool.not_eq_true, and_self,
              not_false_eq_true]
            have hall : ∀ c ∈ (clean_symbol_token t1 ++ clean_symbol_token t2),
                isAlnumC c = true := by
              intro c hc
              rw [List.mem_append] at hc
              rcases hc with hc | hc
              · exact clean_all_alnum t1 c hc
              · exact clean_all_alnum t2 c hc
            rw [is_valid_eq (upper_all_alnum hall)]
            simp
          · simp [hk.1, hk.2, he1, he2, ha1, ha2]
        · simp [hk.1, hk.2, he1, he2, ha1]

theorem symbolPass1_eq_spec (raw : List Tok) :
    symbolPass1 (raw.map clean_symbol_token) (raw.map normalize_keyword) =
      specPass1 raw := by
  induction raw with
  | nil => rfl
  | cons t ts ih =>
    simp only [List.map_cons]
    unfold symbolPass1 specPass1
    rw [acceptSingle_eq_spec]
    cases specAcceptSingle t with
    | some s => rfl
    | none => exact ih

theorem symbolPass2_eq_spec (raw : List Tok) :
    symbolPass2 (raw.map clean_symbol_token) (raw.map normalize_keyword) =
      specPass2 raw := by
  induction raw with
  | nil => rfl
  | cons t ts ih =>
    cases ts with
    | nil => rfl
    | cons t2 ts2 =>
      simp only [List.map_cons]
      unfold symbolPass2 specPass2
      rw [acceptPair_eq_spec]
      cases specAcceptPair t t2 with
      | some s => rfl
      | none =>
        simpa only [List.map_cons] using ih

/-- Claim C5: `extract_symbol` coincides with the spec's two-pass search: a
single cleaned token is accepted when it is at least 5 characters, contains a
letter, is not a vocabulary keyword and ends with a known quote-asset suffix
(first wins); adjacent pairs are considered only when no single token
qualifies, under the same rule with both members non-keyword and
letter-containing. -/
theorem extract_symbol_two_pass_refinement (raw : List Tok) :
    extract_symbol raw (raw.map normalize_keyword) = specExtractSymbol raw := by
  unfold extract_symbol specExtractSymbol
  dsimp only
  rw [symbolPass1_eq_spec]
  cases specPass1 raw with
  | some s => rfl
  | none => exact symbolPass2_eq_spec raw
theorem acceptSingle_valid {c k s : Tok} (h : acceptSingle c k = some s) :
    is_valid_candidate s = true := by
  unfold acceptSingle at h
  split at h
  · exact absurd h (by simp)
  · split at h
    · exact absurd h (by simp)
    · split at h
      · exact absurd h (by simp)
      · dsimp only at h
        split at h
        next hv => cases h; exact hv
        next => exact absurd h (by simp)

theorem acceptPair_valid {c1 c2 k1 k2 s : Tok}
    (h : acceptPair c1 c2 k1 k2 = some s) : is_valid_candidate s = true := by
  unfold acceptPair at h
  split at h
  · exact absurd h (by simp)
  · split at h
    · exact absurd h (by simp)
    · dsimp only at h
      split at h
      next hv => cases h; exact hv
      next => exact absurd h (by simp)

theorem symbolPass1_valid {cs ks : List Tok} {s : Tok}
    (h : symbolPass1 cs ks = some s) : is_valid_candidate s = true := by
  induction cs generalizing ks with
  | nil => simp [symbolPass1] at h
  | cons c cs ih =>
    cases ks with
    | nil => simp [symbolPass1] at h
    | cons k ks =>
      unfold symbolPass1 at h
      cases ha : acceptSingle c k with
      | some s' =>
        rw [ha] at h
        cases h
        exact acceptSingle_valid ha
      | none =>
        rw [ha] at h
        exact ih h

theorem symbolPass2_valid {cs ks : List Tok} {s : Tok}
    (h : symbolPass2 cs ks = some s) : is_valid_candidate s = true := by
  induction cs generalizing ks with
  | nil => simp [symbolPass2] at h
  | cons c1 cs ih =>
    cases cs with
    | nil => cases ks <;> simp [symbolPass2] at h
    | cons c2 cs2 =>
      cases ks with
      | nil => simp [symbolPass2] at h
      | cons k1 ks =>
        cases ks with
        | nil => simp [symbolPass2] at h
        | cons k2 ks2 =>
          unfold symbolPass2 at h
          cases ha : acceptPair c1 c2 k1 k2 with
          | some s' =>
            rw [ha] at h
            cases h
            exact acceptPair_valid ha
          | none =>
            rw [ha] at h
            exact ih h

theorem extract_symbol_valid {raw kw : List Tok} {s : Tok}
    (h : extract_symbol raw kw = some s) : is_valid_candidate s = true := by
  unfold extract_symbol at h
  dsimp only at h
  cases h1 : symbolPass1 (raw.map clean_symbol_token) kw with
  | some s' =>
    rw [h1] at h
    cases h
    exact symbolPass1_valid h1
  | none =>
    rw [h1] at h
    exact symbolPass2_valid h

theorem suffixes_sorted_desc :
    List.Pairwise (fun a b : Tok => b.length ≤ a.length) KNOWN_SYMBOL_SUFFIXES := by
  decide

theorem find?_first_is_longest {l : List Tok} {s suf : Tok}
    (hsort : List.Pairwise (fun a b => b.length ≤ a.length) l)
    (hf : l.find? (fun x => decide (x <:+ s)) = some suf) :
    ∀ x ∈ l, x <:+ s → x.length ≤ suf.length := by
  induction l with
  | nil => simp at hf
  | cons a as ih =>
    rw [List.pairwise_cons] at hsort
    by_cases hpa : a <:+ s
    · rw [List.find?_cons_of_pos as (by simpa using hpa)] at hf
      cases hf
      intro x hx _
      rcases List.mem_cons.mp hx with rfl | hx
      · exact le_refl _
      · exact hsort.1 x hx
    · rw [List.find?_cons_of_neg as (by simpa using hpa)] at hf
      intro x hx hxs
      rcases List.mem_cons.mp hx with rfl | hx
      · exact absurd hxs hpa
      · exact ih hsort.2 hf x hx hxs

/-- Claim C6: for every symbol accepted by `extract_symbol`,
`detect_quote_asset` returns a suffix from the closed known set that the
symbol really ends with, and among all matching known suffixes it is a
longest one. -/
theorem detect_quote_asset_total_longest (raw kw : List Tok) (s : Tok)
    (h : extract_symbol raw kw = some s) :
    ∃ suf, detect_quote_asset s = some suf ∧ suf ∈ KNOWN_SYMBOL_SUFFIXES ∧
      suf <:+ s ∧
      ∀ x ∈ KNOWN_SYMBOL_SUFFIXES, x <:+ s → x.length ≤ suf.length := by
  have hvalid := extract_symbol_valid h
  unfold is_valid_candidate at hvalid
  rw [Bool.and_eq_true, Bool.and_eq_true] at hvalid
  obtain ⟨x, hx, hxs⟩ := List.any_eq_true.mp hvalid.2
  have hexists : ∃ y ∈ KNOWN_SYMBOL_SUFFIXES,
      (fun z : Tok => decide (z <:+ s)) y = true := ⟨x, hx, hxs⟩
  obtain ⟨suf, hsuf⟩ :=
    Option.isSome_iff_exists.mp (List.find?_isSome.mpr hexists)
  refine ⟨suf, ?_, List.mem_of_find?_eq_some hsuf, ?_, ?_⟩
  · unfold detect_quote_asset
    exact hsuf
  · have hps := List.find?_some hsuf
    simpa using hps
  · exact find?_first_is_longest suffixes_sorted_desc hsuf

/-- Witness for C6 at a concrete accepted symbol. -/
theorem detect_quote_asset_total_longest_witness :
    extract_symbol [lit "solusdt"] [lit "solusdt"] = some (lit "SOLUSDT") ∧
    ∃ suf, detect_quote_asset (lit "SOLUSDT") = some suf ∧
      suf ∈ KNOWN_SYMBOL_SUFFIXES ∧ suf <:+ lit "SOLUSDT" ∧
      ∀ x ∈ KNOWN_SYMBOL_SUFFIXES, x <:+ lit "SOLUSDT" →
        x.length ≤ suf.length :=
  ⟨by decide,
   detect_quote_asset_total_longest [lit "solusdt"] [lit "solusdt"]
     (lit "SOLUSDT") (by decide)⟩

theorem pickNumber_spec {ns : List (Nat × Dec)} {used : List Nat} {idx : Nat}
    {p ti : Nat} {v : Dec} (h : pickNumber ns used idx = some (p, ti, v)) :
    ns.get? p = some (ti, v) ∧ used.contains ti = false ∧ idx ≤ ti := by
  unfold pickNumber at h
  rw [Option.map_eq_some'] at h
  obtain ⟨e, hfind, he⟩ := h
  have hmem := List.mem_of_find?_eq_some hfind
  have hpred := List.find?_some hfind
  rw [List.mem_enum_iff_getElem?] at hmem
  have he1 : e.1 = p := congrArg Prod.fst he
  have he2 : e.2 = (ti, v) := congrArg Prod.snd he
  rw [Bool.and_eq_true, Bool.not_eq_true', decide_eq_true_eq] at hpred
  rw [he1, he2] at hmem
  rw [he2] at hpred
  refine ⟨?_, hpred.1, hpred.2⟩
  rw [List.get?_eq_getElem?]
  exact hmem

theorem findNumAfterAux_spec {kws : List Tok} {ns : List (Nat × Dec)}
    {used : List Nat} {r : Nat × Nat × Dec} :
    ∀ (kts : List Tok) (idx : Nat),
      findNumAfterAux kws ns used idx kts = some r →
      ∃ j kw, kts.get? j = some kw ∧ kw ∈ kws ∧
        pickNumber ns used (idx + j) = some r := by
  intro kts
  induction kts with
  | nil => intro idx h; simp [findNumAfterAux] at h
  | cons kw1 rest ih =>
    intro idx h
    unfold findNumAfterAux at h
    split at h
    next hkw =>
      cases hp : pickNumber ns used idx with
      | some r' =>
        rw [hp] at h
        cases h
        exact ⟨0, kw1, rfl, hkw, by simpa using hp⟩
      | none =>
        rw [hp] at h
        obtain ⟨j, kw, hj, hkwm, hpick⟩ := ih (idx + 1) h
        exact ⟨j + 1, kw, hj, hkwm, by rw [Nat.add_comm j 1, ← Nat.add_assoc]; exact hpick⟩
    next hkw =>
      obtain ⟨j, kw, hj, hkwm, hpick⟩ := ih (idx + 1) h
      exact ⟨j + 1, kw, hj, hkwm, by rw [Nat.add_comm j 1, ← Nat.add_assoc]; exact hpick⟩

theorem findNumberAfterKeywords_spec {kws kts : List Tok}
    {ns : List (Nat × Dec)} {used : List Nat} {r : Nat × Nat × Dec}
    (h : findNumberAfterKeywords kws kts ns used = some r) :
    ns.get? r.1 = some (r.2.1, r.2.2) ∧ used.contains r.2.1 = false ∧
      ∃ j kw, kts.get? j = some kw ∧ kw ∈ kws ∧ j ≤ r.2.1 := by
  unfold findNumberAfterKeywords at h
  obtain ⟨j, kw, hj, hkwm, hpick⟩ := findNumAfterAux_spec kts 0 h
  rw [Nat.zero_add] at hpick
  have hr : pickNumber ns used j = some (r.1, r.2.1, r.2.2) := by
    simpa using hpick
  obtain ⟨hget, hused, hle⟩ := pickNumber_spec hr
  exact ⟨hget, hused, j, kw, hj, hkwm, hle⟩

/-- The list positions (in the extracted-numbers list) of the entries that a
parse assigned to quantity, price, callback and activation price. -/
def claimedPositions (cl : ClaimInfo) : List Nat :=
  cl.q.1 :: ((cl.p.map Prod.fst).toList ++ (cl.cb.map Prod.fst).toList ++
    (cl.act.map Prod.fst).toList)

theorem nodup_head_opt3 (a : Nat) (o1 o2 o3 : Option Nat)
    (h1 : ∀ x, o1 = some x → x ≠ a)
    (h2 : ∀ x, o2 = some x → x ≠ a ∧ ∀ y, o1 = some y → x ≠ y)
    (h3 : ∀ x, o3 = some x → x ≠ a ∧ (∀ y, o1 = some y → x ≠ y) ∧
      ∀ z, o2 = some z → x ≠ z) :
    (a :: (o1.toList ++ o2.toList ++ o3.toList)).Nodup := by
  cases o1 <;> cases o2 <;> cases o3 <;>
    simp_all <;> aesop

/-- Claim C8: within one parse no extracted numeric token is assigned to two
different fields: the positions of the claimed entries are pairwise distinct,
and the callback/activation searches only pick entries whose token index is
not yet claimed and lies at or after an occurrence of the corresponding
keyword. -/
theorem claimed_position_exclusivity (cmd : Tok) (o : ParsedOrder)
    (cl : ClaimInfo) (h : parseDetailed cmd = .ok (o, cl)) :
    (claimedPositions cl).Nodup ∧
    (∀ p ti, cl.cb = some (p, ti) →
      (∃ v, (numbersOf cmd).get? p = some (ti, v)) ∧
      ti ≠ cl.q.2 ∧
      (∀ pp tp, cl.p = some (pp, tp) → ti ≠ tp) ∧
      (∃ j kw, (keywordTokensOf cmd).get? j = some kw ∧
        kw ∈ CALLBACK_RATE_KEYWORDS ∧ j ≤ ti)) ∧
    (∀ p ti, cl.act = some (p, ti) →
      (∃ v, (numbersOf cmd).get? p = some (ti, v)) ∧
      ti ≠ cl.q.2 ∧
      (∀ pp tp, cl.p = some (pp, tp) → ti ≠ tp) ∧
      (∀ pc tc, cl.cb = some (pc, tc) → ti ≠ tc) ∧
      (∃ j kw, (keywordTokensOf cmd).get? j = some kw ∧
        kw ∈ ACTIVATION_PRICE_KEYWORDS ∧ j ≤ ti)) := by
  obtain ⟨side, symbol, qIdx, q, rest, -, -, hnum, -, hp⟩ := parseDetailed_ok_inv h
  obtain ⟨priceInfo, hpi, hc⟩ := stepPrice_inv hp
  obtain ⟨cb, hcb, ha⟩ := stepCallback_inv hc
  obtain ⟨act, hact, hb⟩ := stepActivation_inv ha
  have hcl : cl = _ := congrArg Prod.snd (buildOrder_inv hb)
  subst hcl
  have hget0 : (numbersOf cmd).get? 0 = some (qIdx, q) := by rw [hnum]; rfl
  have hpr1 : ∀ pr, priceInfo = some pr → (numbersOf cmd).get? 1 = some pr := by
    intro pr hpr
    rcases hpi with ⟨-, pr', hpr', -, hpieq⟩ | ⟨-, hpieq⟩
    · rw [hpieq] at hpr
      cases hpr
      exact hpr'
    · rw [hpieq] at hpr
      cases hpr
  have hq_used1 : qIdx ∈ priceUsed qIdx priceInfo := by
    cases priceInfo <;> simp [priceUsed]
  have hp_used1 : ∀ pr, priceInfo = some pr → pr.1 ∈ priceUsed qIdx priceInfo := by
    intro pr hpr
    subst hpr
    simp [priceUsed]
  have hsub12 : ∀ x, x ∈ priceUsed qIdx priceInfo →
      x ∈ cbUsed (priceUsed qIdx priceInfo) cb := by
    intro x hx
    cases cb with
    | none => exact hx
    | some r =>
      simp only [cbUsed, List.mem_append]
      exact Or.inl hx
  have hcb_used2 : ∀ r, cb = some r →
      r.2.1 ∈ cbUsed (priceUsed qIdx priceInfo) cb := by
    intro r hr
    subst hr
    simp [cbUsed]
  have cbFacts : ∀ r, cb = some r →
      (numbersOf cmd).get? r.1 = some (r.2.1, r.2.2) ∧
      r.2.1 ∉ priceUsed qIdx priceInfo ∧
      ∃ j kw, (keywordTokensOf cmd).get? j = some kw ∧
        kw ∈ CALLBACK_RATE_KEYWORDS ∧ j ≤ r.2.1 := by
    intro r hr
    rcases hcb with ⟨r', hfind, -, heq⟩ | ⟨-, heq⟩
    · rw [hr] at heq
      cases heq
      obtain ⟨hget, hused, hkw⟩ := findNumberAfterKeywords_spec hfind
      refine ⟨hget, ?_, hkw⟩
      simp_all
    · rw [heq] at hr
      cases hr
  have actFacts : ∀ r, act = some r →
      (numbersOf cmd).get? r.1 = some (r.2.1, r.2.2) ∧
      r.2.1 ∉ cbUsed (priceUsed qIdx priceInfo) cb ∧
      ∃ j kw, (keywordTokensOf cmd).get? j = some kw ∧
        kw ∈ ACTIVATION_PRICE_KEYWORDS ∧ j ≤ r.2.1 := by
    intro r hr
    rcases hact with ⟨r', hfind, -, heq⟩ | ⟨-, heq⟩
    · rw [hr] at heq
      cases heq
      obtain ⟨hget, hused, hkw⟩ := findNumberAfterKeywords_spec hfind
      refine ⟨hget, ?_, hkw⟩
      simp_all
    · rw [heq] at hr
      cases hr
  have cb_ne_q : ∀ r, cb = some r → r.2.1 ≠ qIdx := by
    intro r hr hne
    exact (cbFacts r hr).2.1 (hne ▸ hq_used1)
  have cb_ne_p : ∀ r pr, cb = some r → priceInfo = some pr → r.2.1 ≠ pr.1 := by
    intro r pr hr hpr hne
    exact (cbFacts r hr).2.1 (hne ▸ hp_used1 pr hpr)
  have act_ne_q : ∀ r, act = some r → r.2.1 ≠ qIdx := by
    intro r hr hne
    exact (actFacts r hr).2.1 (hsub12 _ (hne ▸ hq_used1))
  have act_ne_p : ∀ r pr, act = some r → priceInfo = some pr → r.2.1 ≠ pr.1 := by
    intro r pr hr hpr hne
    exact (actFacts r hr).2.1 (hsub12 _ (hne ▸ hp_used1 pr hpr))
  have act_ne_cb : ∀ r r', act = some r → cb = some r' → r.2.1 ≠ r'.2.1 := by
    intro r r' hr hr' hne
    exact (actFacts r hr).2.1 (hne ▸ hcb_used2 r' hr')
  have cb_pos_ne0 : ∀ r, cb = some r → r.1 ≠ 0 := by
    intro r hr h0
    have hget := (cbFacts r hr).1
    rw [h0, hget0] at hget
    have : qIdx = r.2.1 := congrArg Prod.fst (Option.some.inj hget)
    exact cb_ne_q r hr this.symm
  have cb_pos_ne1 : ∀ r pr, cb = some r → priceInfo = some pr → r.1 ≠ 1 := by
    intro r pr hr hpr h1
    have hget := (cbFacts r hr).1
    rw [h1, hpr1 pr hpr] at hget
    have : pr.1 = r.2.1 := congrArg Prod.fst (Option.some.inj hget)
    exact cb_ne_p r pr hr hpr this.symm
  have act_pos_ne0 : ∀ r, act = some r → r.1 ≠ 0 := by
    intro r hr h0
    have hget := (actFacts r hr).1
    rw [h0, hget0] at hget
    have : qIdx = r.2.1 := congrArg Prod.fst (Option.some.inj hget)
    exact act_ne_q r hr this.symm
  have act_pos_ne1 : ∀ r pr, act = some r → priceInfo = some pr → r.1 ≠ 1 := by
    intro r pr hr hpr h1
    have hget := (actFacts r hr).1
    rw [h1, hpr1 pr hpr] at hget
    have : pr.1 = r.2.1 := congrArg Prod.fst (Option.some.inj hget)
    exact act_ne_p r pr hr hpr this.symm
  have act_pos_ne_cb : ∀ r r', act = some r → cb = some r' → r.1 ≠ r'.1 := by
    intro r r' hr hr' hpe
    have hget := (actFacts r hr).1
    rw [hpe, (cbFacts r' hr').1] at hget
    have : r'.2.1 = r.2.1 := congrArg Prod.fst (Option.some.inj hget)
    exact act_ne_cb r r' hr hr' this.symm
  refine ⟨?_, ?_, ?_⟩
  · simp only [claimedPositions]
    apply nodup_head_opt3
    · intro x hx
      rw [Option.map_eq_some'] at hx
      obtain ⟨pp, hpp, hx⟩ := hx
      rw [Option.map_eq_some'] at hpp
      obtain ⟨pr, hpr, hpp⟩ := hpp
      rw [← hpp] at hx
      simp only at hx
      subst hx
      simp
    · intro x hx
      rw [Option.map_eq_some'] at hx
      obtain ⟨rp, hrp, hx⟩ := hx
      rw [Option.map_eq_some'] at hrp
      obtain ⟨r, hr, hrp⟩ := hrp
      rw [← hrp] at hx
      simp only at hx
      subst hx
      constructor
      · exact cb_pos_ne0 r hr
      · intro y hy
        rw [Option.map_eq_some'] at hy
        obtain ⟨pp, hpp, hy⟩ := hy
        rw [Option.map_eq_some'] at hpp
        obtain ⟨pr, hpr, hpp⟩ := hpp
        rw [← hpp] at hy
        simp only at hy
        subst hy
        exact cb_pos_ne1 r pr hr hpr
    · intro x hx
      rw [Option.map_eq_some'] at hx
      obtain ⟨rp, hrp, hx⟩ := hx
      rw [Option.map_eq_some'] at hrp
      obtain ⟨r, hr, hrp⟩ := hrp
      rw [← hrp] at hx
      simp only at hx
      subst hx
      refine ⟨act_pos_ne0 r hr, ?_, ?_⟩
      · intro y hy
        rw [Option.map_eq_some'] at hy
        obtain ⟨pp, hpp, hy⟩ := hy
        rw [Option.map_eq_some'] at hpp
        obtain ⟨pr, hpr, hpp⟩ := hpp
        rw [← hpp] at hy
        simp only at hy
        subst hy
        exact act_pos_ne1 r pr hr hpr
      · intro z hz
        rw [Option.map_eq_some'] at hz
        obtain ⟨rp', hrp', hz⟩ := hz
        rw [Option.map_eq_some'] at hrp'
        obtain ⟨r', hr', hrp'⟩ := hrp'
        rw [← hrp'] at hz
        simp only at hz
        subst hz
        exact act_pos_ne_cb r r' hr hr'
  · intro p ti hcbti
    simp only [Option.map_eq_some'] at hcbti
    obtain ⟨r, hr, heq⟩ := hcbti
    have hpeq : r.1 = p := congrArg Prod.fst heq
    have hteq : r.2.1 = ti := congrArg Prod.snd heq
    obtain ⟨hget, hnu, hkw⟩ := cbFacts r hr
    refine ⟨⟨r.2.2, by rw [← hpeq, ← hteq]; exact hget⟩, ?_, ?_, ?_⟩
    · simp only
      rw [← hteq]
      exact cb_ne_q r hr
    · intro pp tp hptp
      simp only [Option.map_eq_some'] at hptp
      obtain ⟨pr, hpr, hpeq'⟩ := hptp
      have : pr.1 = tp := congrArg Prod.snd hpeq'
      rw [← hteq, ← this]
      exact cb_ne_p r pr hr hpr
    · rw [← hteq]
      exact hkw
  · intro p ti hactti
    simp only [Option.map_eq_some'] at hactti
    obtain ⟨r, hr, heq⟩ := hactti
    have hpeq : r.1 = p := congrArg Prod.fst heq
    have hteq : r.2.1 = ti := congrArg Prod.snd heq
    obtain ⟨hget, hnu, hkw⟩ := actFacts r hr
    refine ⟨⟨r.2.2, by rw [← hpeq, ← hteq]; exact hget⟩, ?_, ?_, ?_, ?_⟩
    · simp only
      rw [← hteq]
      exact act_ne_q r hr
    · intro pp tp hptp
      simp only [Option.map_eq_some'] at hptp
      obtain ⟨pr, hpr, hpeq'⟩ := hptp
      have : pr.1 = tp := congrArg Prod.snd hpeq'
      rw [← hteq, ← this]
      exact act_ne_p r pr hr hpr
    · intro pc tc hptc
      simp only [Option.map_eq_some'] at hptc
      obtain ⟨r', hr', hpeq'⟩ := hptc
      have : r'.2.1 = tc := congrArg Prod.snd hpeq'
      rw [← hteq, ← this]
      exact act_ne_cb r r' hr hr'
    · rw [← hteq]
      exact hkw


/-- Witness for C8 at a command that assigns quantity, callback and
activation price: the claimed entry positions are pairwise distinct. -/
theorem claimed_position_exclusivity_witness :
    parseDetailed (lit "acheter 1 btcusdt callback 0,5 activation 20000") =
      .ok ({ side := lit "BUY", symbol := lit "BTCUSDT",
             order_type := lit "MARKET", quantity := lit "1",
             quote_asset := some (lit "USDT"), quote := some (lit "USDT"),
             callback := some (lit "0.5"),
             activation_price := some (lit "20000") },
           { q := (0, 1), p := none, cb := some (1, 4), act := some (2, 6) }) ∧
    (claimedPositions
      { q := (0, 1), p := none, cb := some (1, 4), act := some (2, 6) }).Nodup :=
  ⟨by decide,
   (claimed_position_exclusivity (lit "acheter 1 btcusdt callback 0,5 activation 20000")
     { side := lit "BUY", symbol := lit "BTCUSDT",
       order_type := lit "MARKET", quantity := lit "1",
       quote_asset := some (lit "USDT"), quote := some (lit "USDT"),
       callback := some (lit "0.5"), activation_price := some (lit "20000") }
     { q := (0, 1), p := none, cb := some (1, 4), act := some (2, 6) }
     (by decide)).1⟩

/-- Shape of an unsigned `NUMBER_PATTERN` match: a nonempty digit run,
optionally followed by a decimal separator and a nonempty digit run. -/
def numShapeCore (m : List Char) : Prop :=
  ∃ ds f, m = ds ++ f ∧ ds ≠ [] ∧ (∀ c ∈ ds, isDigitC c = true) ∧
    (f = [] ∨ ∃ sep ds2, f = sep :: ds2 ∧ (sep = '.' ∨ sep = ',') ∧
      ds2 ≠ [] ∧ ∀ c ∈ ds2, isDigitC c = true)

/-- Shape of a full `NUMBER_PATTERN` match: optional sign, then digits with
an optional fractional part. -/
def numShape (m : List Char) : Prop :=
  ∃ sgn core, m = sgn ++ core ∧ (sgn = [] ∨ sgn = ['+'] ∨ sgn = ['-']) ∧
    numShapeCore core

theorem matchDigits_sound {l m r : List Char} (h : matchDigits l = some (m, r)) :
    l = m ++ r ∧ numShapeCore m ∧ lookaheadOk r = true := by
  unfold matchDigits at h
  dsimp only at h
  split at h
  · exact absurd h (by simp)
  next hds =>
    have hdne : l.takeWhile isDigitC ≠ [] := by
      simpa [List.isEmpty_iff] using hds
    have hdall : ∀ c ∈ l.takeWhile isDigitC, isDigitC c = true :=
      fun c hc => List.mem_takeWhile_imp hc
    have hsplit : l.takeWhile isDigitC ++ l.dropWhile isDigitC = l :=
      List.takeWhile_append_dropWhile isDigitC l
    split at h
    next hrest =>
      cases h
      have h1 := hsplit
      rw [hrest, List.append_nil] at h1
      refine ⟨?_, ⟨l.takeWhile isDigitC, [], by simp, hdne, hdall, Or.inl rfl⟩, rfl⟩
      rw [List.append_nil]
      exact h1.symm
    next sep rest2 hrest =>
      split at h
      next hsep =>
        split at h
        next hfrac =>
          cases h
          rw [Bool.and_eq_true, Bool.not_eq_true'] at hfrac
          have h2ne : rest2.takeWhile isDigitC ≠ [] := by
            simpa [List.isEmpty_eq_true] using hfrac.1
          have h2all : ∀ c ∈ rest2.takeWhile isDigitC, isDigitC c = true :=
            fun c hc => List.mem_takeWhile_imp hc
          have h2split : rest2.takeWhile isDigitC ++ rest2.dropWhile isDigitC = rest2 :=
            List.takeWhile_append_dropWhile isDigitC rest2
          refine ⟨?_, ?_, hfrac.2⟩
          · calc l = l.takeWhile isDigitC ++ l.dropWhile isDigitC := hsplit.symm
              _ = l.takeWhile isDigitC ++ (sep :: rest2) := by rw [hrest]
              _ = l.takeWhile isDigitC ++
                  (sep :: (rest2.takeWhile isDigitC ++ rest2.dropWhile isDigitC)) := by
                    rw [h2split]
              _ = (l.takeWhile isDigitC ++ sep :: rest2.takeWhile isDigitC) ++
                  rest2.dropWhile isDigitC := by simp
          · refine ⟨l.takeWhile isDigitC, sep :: rest2.takeWhile isDigitC,
              rfl, hdne, hdall,
              Or.inr ⟨sep, rest2.takeWhile isDigitC, rfl, ?_, h2ne, h2all⟩⟩
            rcases Bool.or_eq_true _ _ |>.mp hsep with hs | hs
            · exact Or.inl (by simpa using hs)
            · exact Or.inr (by simpa using hs)
        next =>
          split at h
          next hla =>
            cases h
            exact ⟨hsplit.symm,
              ⟨l.takeWhile isDigitC, [], by simp, hdne, hdall, Or.inl rfl⟩, hla⟩
          next => exact absurd h (by simp)
      next =>
        split at h
        next hla =>
          cases h
          exact ⟨hsplit.symm,
            ⟨l.takeWhile isDigitC, [], by simp, hdne, hdall, Or.inl rfl⟩, hla⟩
        next => exact absurd h (by simp)

theorem matchFrom_sound {l m r : List Char} (h : matchFrom l = some (m, r)) :
    l = m ++ r ∧ numShape m ∧ lookaheadOk r = true := by
  unfold matchFrom at h
  split at h
  next => exact absurd h (by simp)
  next c rest =>
    split at h
    next hsign =>
      rw [Option.map_eq_some'] at h
      obtain ⟨⟨m', r'⟩, hmd, heq⟩ := h
      obtain ⟨hsplit, hcore, hla⟩ := matchDigits_sound hmd
      have hm : c :: m' = m := congrArg Prod.fst heq
      have hr : r' = r := congrArg Prod.snd heq
      subst hm
      subst hr
      refine ⟨by rw [hsplit]; rfl, ⟨[c], m', rfl, ?_, hcore⟩, hla⟩
      rcases Bool.or_eq_true _ _ |>.mp hsign with hs | hs
      · exact Or.inr (Or.inl (by simpa using hs))
      · exact Or.inr (Or.inr (by simpa using hs))
    next =>
      obtain ⟨hsplit, hcore, hla⟩ := matchDigits_sound h
      exact ⟨hsplit, ⟨[], m, rfl, Or.inl rfl, hcore⟩, hla⟩

/-- The character immediately before the position reached after consuming
`pre`, given the character (if any) before `pre` itself. -/
def prevOfPre (prev : Option Char) (pre : List Char) : Option Char :=
  match pre.getLast? with
  | some c => some c
  | none => prev

theorem prevOfPre_cons (prev : Option Char) (c : Char) (pre : List Char) :
    prevOfPre prev (c :: pre) = prevOfPre (some c) pre := by
  cases pre with
  | nil => simp [prevOfPre]
  | cons d pre' =>
    simp only [prevOfPre, List.getLast?_cons_cons]
    cases hgl : (d :: pre').getLast? with
    | none => exact absurd hgl (by simp)
    | some e => rfl

theorem scanTok_sound :
    ∀ (l : List Char) (prev : Option Char) (pos nf p : Nat) (m : List Char),
      (p, m) ∈ scanTok prev pos nf l →
      ∃ pre post, l = pre ++ m ++ post ∧ p = pos + pre.length ∧
        lookbehindOk (prevOfPre prev pre) = true ∧ lookaheadOk post = true ∧
        numShape m := by
  intro l
  induction l with
  | nil =>
    intro prev pos nf p m h
    simp [scanTok] at h
  | cons c rest ih =>
    intro prev pos nf p m h
    have lift : ∀ nf', (p, m) ∈ scanTok (some c) (pos + 1) nf' rest →
        ∃ pre post, c :: rest = pre ++ m ++ post ∧ p = pos + pre.length ∧
          lookbehindOk (prevOfPre prev pre) = true ∧ lookaheadOk post = true ∧
          numShape m := by
      intro nf' h'
      obtain ⟨pre', post', hsplit, hpos, hlb, hla, hshape⟩ :=
        ih (some c) (pos + 1) nf' p m h'
      refine ⟨c :: pre', post', by rw [hsplit]; rfl, ?_, ?_, hla, hshape⟩
      · simp only [List.length_cons]
        omega
      · rw [prevOfPre_cons]
        exact hlb
    unfold scanTok at h
    split at h
    next hcond =>
      split at h
      next m0 r0 hmf =>
        rcases List.mem_cons.mp h with heq | htail
        · have hp : p = pos := congrArg Prod.fst heq
          have hm : m = m0 := congrArg Prod.snd heq
          subst hp
          subst hm
          obtain ⟨hsplit, hshape, hla⟩ := matchFrom_sound hmf
          refine ⟨[], r0, by simpa using hsplit, by simp, ?_, hla, hshape⟩
          simp only [prevOfPre]
          exact (Bool.and_eq_true _ _ |>.mp hcond).2
        · exact lift _ htail
      next hmf => exact lift _ h
    next hcond => exact lift _ h

theorem fst_eq_of_mem_numbers {t : Tok} {i : Nat} {x : Nat × Dec}
    (hx : x ∈ (findNumberMatches t).filterMap
      (fun pm => (parseDec (pm.2.map commaToDot)).map (fun v => (i, v)))) :
    x.1 = i := by
  rw [List.mem_filterMap] at hx
  obtain ⟨pm, -, heq⟩ := hx
  rw [Option.map_eq_some'] at heq
  obtain ⟨v, -, heq⟩ := heq
  rw [← heq]

theorem le_fst_of_mem_flatMap {n : Nat} {ts : List Tok} {y : Nat × Dec}
    (hy : y ∈ (List.enumFrom n ts).flatMap (fun it =>
      (findNumberMatches it.2).filterMap
        (fun pm => (parseDec (pm.2.map commaToDot)).map (fun v => (it.1, v))))) :
    n ≤ y.1 := by
  induction ts generalizing n with
  | nil => simp at hy
  | cons t ts ih =>
    rw [List.enumFrom_cons, List.flatMap_cons, List.mem_append] at hy
    rcases hy with hy | hy
    · rw [fst_eq_of_mem_numbers hy]
    · exact Nat.le_trans (Nat.le_succ n) (ih hy)

theorem pairwise_fst_const {n : Nat} {l : List (Nat × Dec)}
    (h : ∀ x ∈ l, x.1 = n) : l.Pairwise (fun a b => a.1 ≤ b.1) := by
  induction l with
  | nil => exact List.Pairwise.nil
  | cons a l ih =>
    rw [List.pairwise_cons]
    refine ⟨fun b hb => ?_, ih (fun x hx => h x (List.mem_cons_of_mem a hx))⟩
    rw [h a (List.mem_cons_self a l), h b (List.mem_cons_of_mem a hb)]

theorem pairwise_fst_le_flatMap (n : Nat) (ts : List Tok) :
    ((List.enumFrom n ts).flatMap (fun it =>
      (findNumberMatches it.2).filterMap
        (fun pm => (parseDec (pm.2.map commaToDot)).map (fun v => (it.1, v))))).Pairwise
      (fun a b => a.1 ≤ b.1) := by
  induction ts generalizing n with
  | nil => simp
  | cons t ts ih =>
    rw [List.enumFrom_cons, List.flatMap_cons, List.pairwise_append]
    refine ⟨pairwise_fst_const (fun x hx => fst_eq_of_mem_numbers hx), ih (n + 1), ?_⟩
    intro a ha b hb
    rw [fst_eq_of_mem_numbers ha]
    exact Nat.le_trans (Nat.le_succ n) (le_fst_of_mem_flatMap hb)

theorem extract_numbers_mem_sound {tokens : List Tok} {i : Nat} {v : Dec}
    (h : (i, v) ∈ extract_numbers_with_indices tokens) :
    ∃ t, tokens.get? i = some t ∧ ∃ p ms, (p, ms) ∈ findNumberMatches t ∧
      parseDec (ms.map commaToDot) = some v := by
  unfold extract_numbers_with_indices at h
  rw [List.mem_flatMap] at h
  obtain ⟨it, hit, hmem⟩ := h
  rw [List.mem_filterMap] at hmem
  obtain ⟨pm, hpm, heq⟩ := hmem
  rw [Option.map_eq_some'] at heq
  obtain ⟨v', hv', heq⟩ := heq
  have hi : it.1 = i := congrArg Prod.fst heq
  have hv : v' = v := congrArg Prod.snd heq
  refine ⟨it.2, ?_, pm.1, pm.2, by simpa using hpm, by rw [← hv]; exact hv'⟩
  rw [List.get?_eq_getElem?, ← hi]
  exact List.mem_enum_iff_getElem?.mp hit

/-- Claim C7: every value produced by `extract_numbers_with_indices` comes
from a `NUMBER_PATTERN` match inside the token at its recorded index — the
match is a slice of the token whose neighbouring characters are not
alphanumeric and has the signed integer-or-decimal shape with `.` or `,` as
separator, and the value is the conversion of the match after commas are
normalized to dots (matches whose conversion fails are skipped by
construction); the output is in source-token order; and the token
"btc2usdt" yields no number at all. -/
theorem number_extraction_spec :
    (∀ (tokens : List Tok) (i : Nat) (v : Dec),
      (i, v) ∈ extract_numbers_with_indices tokens →
      ∃ t, tokens.get? i = some t ∧ ∃ p ms, (p, ms) ∈ findNumberMatches t ∧
        parseDec (ms.map commaToDot) = some v) ∧
    (∀ (t : Tok) (p : Nat) (ms : List Char), (p, ms) ∈ findNumberMatches t →
      ∃ pre post, t = pre ++ ms ++ post ∧ p = pre.length ∧
        (∀ c, pre.getLast? = some c → isAlnumC c = false) ∧
        (∀ c, post.head? = some c → isAlnumC c = false) ∧ numShape ms) ∧
    (∀ tokens : List Tok,
      (extract_numbers_with_indices tokens).Pairwise (fun a b => a.1 ≤ b.1)) ∧
    extract_numbers_with_indices [lit "btc2usdt"] = [] := by
  refine ⟨fun tokens i v h => extract_numbers_mem_sound h, ?_, ?_, by decide⟩
  · intro t p ms h
    obtain ⟨pre, post, hsplit, hpos, hlb, hla, hshape⟩ :=
      scanTok_sound t none 0 0 p ms h
    refine ⟨pre, post, hsplit, by omega, ?_, ?_, hshape⟩
    · intro c hc
      unfold prevOfPre at hlb
      rw [hc] at hlb
      simpa [lookbehindOk] using hlb
    · intro c hc
      cases post with
      | nil => simp at hc
      | cons d post' =>
        have hdc : d = c := by simpa using hc
        subst hdc
        simpa [lookaheadOk] using hla
  · intro tokens
    unfold extract_numbers_with_indices
    rw [List.enum_eq_enumFrom]
    exact pairwise_fst_le_flatMap 0 tokens

/-- Witness for C7: the single match of the token "0,25" starts at position
0, is the whole token, and satisfies the boundary and shape conditions. -/
theorem number_extraction_spec_witness :
    ((0, lit "0,25") ∈ findNumberMatches (lit "0,25")) ∧
    (∃ pre post, lit "0,25" = pre ++ lit "0,25" ++ post ∧ (0 : Nat) = pre.length ∧
      (∀ c, pre.getLast? = some c → isAlnumC c = false) ∧
      (∀ c, post.head? = some c → isAlnumC c = false) ∧ numShape (lit "0,25")) :=
  ⟨by decide, number_extraction_spec.2.1 (lit "0,25") 0 (lit "0,25") (by decide)⟩
